import Mathlib

/-!
Verification development for the AI_Healthcare_Chatbot repository.

The Python sources (utils.py, app.py, main.py) are shallowly embedded here:
Python strings are modelled as lists of characters (Str), Python string
methods (strip, lower, replace, split) as executable functions on Str that
mirror their behaviour on the ASCII inputs the program manipulates, the
Flask per-conversation session dict as an explicit Session structure, and
the trained classifier together with the label encoder as function
parameters.  Probabilities are modelled as rationals.  The /chat request
handler of app.py becomes a pure function from a session and an input
string to an optional (session, reply) pair; the None result stands for the
KeyError that an unguarded session lookup would raise.
-/

/-- Python strings are modelled as lists of characters. -/
abbrev Str := List Char

/-- Whitespace test used by the models of Python str.strip / str.split. -/
def wsChar (c : Char) : Bool := c.isWhitespace

/-- Model of Python str.strip(): drop whitespace from both ends. -/
def trimList (l : Str) : Str :=
  ((l.dropWhile wsChar).reverse.dropWhile wsChar).reverse

/-- Model of Python str.lower() on the ASCII data the program handles. -/
def toLowerList (l : Str) : Str := l.map Char.toLower

/-- Model of Python s.replace(a, b) for single characters a, b. -/
def replaceChar (a b : Char) (l : Str) : Str :=
  l.map (fun c => if c = a then b else c)

/-- Model of Python s.replace(a, "") for a single character a. -/
def removeChar (a : Char) (l : Str) : Str :=
  l.filter (fun c => c ≠ a)

/-- Accumulator-based splitter behind splitWs. -/
def splitWsAux : Str → Str → List Str
  | [], acc => if acc = [] then [] else [acc.reverse]
  | c :: t, acc =>
      if wsChar c then
        (if acc = [] then splitWsAux t [] else acc.reverse :: splitWsAux t [])
      else splitWsAux t (c :: acc)

/-- Model of Python str.split() with no argument: split on whitespace runs,
discarding empty fragments. -/
def splitWs (l : Str) : List Str := splitWsAux l []

/-- Model of Python sep.join(list). -/
def joinSep (sep : Str) : List Str → Str
  | [] => []
  | [x] => x
  | x :: y :: xs => x ++ sep ++ joinSep sep (y :: xs)

/-- Substring test: model of the Python expression needle in hay. -/
def containsSub (hay needle : Str) : Bool :=
  match hay with
  | [] => needle.isEmpty
  | _ :: t => needle.isPrefixOf hay || containsSub t needle

/-- utils.py SYMPTOMS: the fixed, ordered symptom vocabulary. -/
def SYMPTOMS : List Str :=
  ["fever".data, "cough".data, "sore_throat".data, "runny_nose".data,
   "headache".data, "fatigue".data, "nausea".data, "vomiting".data,
   "diarrhea".data, "abdominal_pain".data, "chest_pain".data,
   "shortness_of_breath".data, "dizziness".data, "leg_swelling".data,
   "bleeding".data, "rash".data, "joint_pain".data, "loss_of_smell".data,
   "loss_of_taste".data, "sore_eyes".data]

/-- utils.py emergency_check: the set of direct critical terms (the Python
set literal is modelled as a list; only membership is ever used). -/
def emergency_terms : List Str :=
  ["cardiac_arrest".data, "heart_attack".data, "stroke".data,
   "severe_bleeding".data, "unconscious".data, "loss_of_consciousness".data,
   "difficulty_breathing".data, "severe_chest_pain".data]

/-- utils.py emergency_check: scan the tokens in order for a direct critical
term (first hit wins); otherwise apply the compound chest-pain rule. -/
def emergency_check (tokens : List Str) : Bool × Option Str :=
  match tokens.find? (fun t => decide (t ∈ emergency_terms)) with
  | some t => (true, some t)
  | none =>
      if "chest_pain".data ∈ tokens ∧
          ("shortness_of_breath".data ∈ tokens ∨ "dizziness".data ∈ tokens) then
        (true, some "chest_pain + shortness_of_breath".data)
      else (false, none)

/-- utils.py vectorize_symptoms: binary feature vector over the vocabulary
(Python set membership coincides with list membership). -/
def vectorize_symptoms (tokens : List Str) : List ℕ :=
  SYMPTOMS.map (fun s => if s ∈ tokens then 1 else 0)

/-- app.py line 30: user_input = raw.strip().lower(). -/
def normInput (raw : Str) : Str := toLowerList (trimList raw)

/-- app.py lines 77-79, applied to the already normalized input: replace
commas by spaces, delete periods, split on whitespace, strip each word and
replace internal spaces by underscores, keep only vocabulary tokens. -/
def matchedTokens (u : Str) : List Str :=
  ((splitWs (removeChar '.' (replaceChar ',' ' ' u))).filterMap
      (fun w => if trimList w = [] then none
                else some (replaceChar ' ' '_' (trimList w)))).filter
    (fun t => decide (t ∈ SYMPTOMS))

/-- The full web extraction pipeline from the raw request text. -/
def extract (raw : Str) : List Str := matchedTokens (normInput raw)

/-- Stable insertion of one (index, probability) pair into a list already
sorted by descending probability: the inserted element precedes every kept
element whose probability is not strictly greater.  Together with sortDesc
this models Python sorted(key=lambda x: x[1], reverse=True), which is a
stable descending sort. -/
def insort (x : ℕ × ℚ) : List (ℕ × ℚ) → List (ℕ × ℚ)
  | [] => [x]
  | y :: ys => if x.2 < y.2 then y :: insort x ys else x :: y :: ys

/-- Stable descending sort by probability (model of the Python sorted call
in app.py line 116 and main.py line 74). -/
def sortDesc : List (ℕ × ℚ) → List (ℕ × ℚ)
  | [] => []
  | x :: xs => insort x (sortDesc xs)

/-- topk = sorted(enumerate(proba), key=lambda x: x[1], reverse=True)[:3]. -/
def topk (proba : List ℚ) : List (ℕ × ℚ) := (sortDesc proba.enum).take 3

/-- The fixed triple returned by the fever rule (app.py line 112). -/
def fever_preds : List (Str × ℚ) :=
  [("Common Cold".data, 6/10), ("Influenza".data, 3/10), ("COVID-19".data, 1/10)]

/-- The classifier path shared by app.py lines 114-117 and main.py lines
72-75: vectorize, query the classifier, keep the top three, decode labels.
The trained model and the label encoder are abstracted as the function
parameters mp and dec. -/
def model_topk_preds (mp : List ℕ → List ℚ) (dec : ℕ → Str)
    (tokens : List Str) : List (Str × ℚ) :=
  (topk (mp (vectorize_symptoms tokens))).map (fun x => (dec x.1, x.2))

/-- The web prediction step (app.py lines 110-117): fever rule first, else
the classifier path. -/
def app_predict (mp : List ℕ → List ℚ) (dec : ℕ → Str)
    (tokens : List Str) : List (Str × ℚ) :=
  if "fever".data ∈ tokens ∧ "leg_swelling".data ∉ tokens then fever_preds
  else model_topk_preds mp dec tokens

/-- The CLI prediction step (main.py lines 71-75): the classifier path with
no preceding rule. -/
def cli_predict (mp : List ℕ → List ℚ) (dec : ℕ → Str)
    (tokens : List Str) : List (Str × ℚ) :=
  model_topk_preds mp dec tokens

/-- The Flask session dict of app.py, with one optional field per key the
handler ever writes ("step", "tokens", "duration", "severity", "preds"). -/
structure Session where
  step : Option Str
  tokens : Option (List Str)
  duration : Option Str
  severity : Option Str
  preds : Option (List (Str × ℚ))
deriving DecidableEq, Repr

/-- session.clear(): the empty session (also the state of a brand-new
conversation). -/
def Session.empty : Session := ⟨none, none, none, none, none⟩

/-- The reply of one /chat turn.  The canned reply texts of app.py are
abstracted into one tag per return site, carrying exactly the data the
text interpolates (the matched emergency term, the joined vocabulary, the
prediction list). -/
inductive Reply where
  | askDescribe
  | thanksBye
  | greeting
  | goodbye
  | listSymptoms (txt : Str)
  | noSymptoms
  | notRecognized
  | emergency (term : Option Str)
  | askDuration
  | askSeverity
  | showPredictions (preds : List (Str × ℚ))
  | recommendations (preds : List (Str × ℚ))
  | skipAdvice
  | askYesNo
  | askMore
  | closing
  | didNotUnderstand
deriving DecidableEq, Repr

/-- app.py line 35: the farewell / gratitude keywords (substring match). -/
def farewell_words : List Str :=
  ["thank".data, "thanks".data, "thankyou".data, "bye".data, "goodbye".data,
   "see you".data, "take care".data]

/-- app.py line 44: the greeting keywords (exact match). -/
def greeting_words : List Str :=
  ["hi".data, "hello".data, "hey".data, "start".data, "good morning".data,
   "good evening".data]

/-- app.py line 69: the negation phrases (exact match; the third-person
apostrophe in the source is the U+2019 character). -/
def negation_words : List Str :=
  ["no".data, "none".data, "nothing".data, "not really".data,
   "i’m fine".data, "i am fine".data, "feeling good".data,
   "nothing serious".data]

/-- app.py line 130: yes keywords of the recommendation question
(substring match; the Python set is modelled as a list, any is
order-insensitive). -/
def yes_words : List Str :=
  ["yes".data, "y".data, "yeah".data, "sure".data, "ok".data, "okay".data,
   "of course".data, "please".data, "yes please".data]

/-- app.py line 131: no keywords of the recommendation question. -/
def no_words : List Str :=
  ["no".data, "n".data, "nope".data, "not now".data]

/-- app.py line 154: yes keywords of the more-symptoms question. -/
def more_yes_words : List Str :=
  ["yes".data, "y".data, "sure".data, "ok".data, "okay".data]

/-- The /chat handler of app.py on the already normalized input u
(user_input after strip and lower).  Returns none exactly when the handler
would raise: the unguarded session["tokens"] lookup in the severity branch
with no stored tokens. -/
def chatOnInput (mp : List ℕ → List ℚ) (dec : ℕ → Str)
    (s : Session) (u : Str) : Option (Session × Reply) :=
  if u = [] then some (s, .askDescribe)
  else if farewell_words.any (fun w => containsSub u w) = true then
    some (Session.empty, .thanksBye)
  else if u ∈ greeting_words then
    some (⟨some "symptom".data, none, none, none, none⟩, .greeting)
  else if u = "exit".data ∨ u = "quit".data then
    some (Session.empty, .goodbye)
  else if u = "list".data then
    some (s, .listSymptoms (joinSep ", ".data SYMPTOMS))
  else if s.step.getD "symptom".data = "symptom".data then
    if u ∈ negation_words then some (Session.empty, .noSymptoms)
    else if matchedTokens u = [] then some (s, .notRecognized)
    else if (emergency_check (matchedTokens u)).1 = true then
      some (s, .emergency (emergency_check (matchedTokens u)).2)
    else
      some (⟨some "duration".data, some (matchedTokens u),
             s.duration, s.severity, s.preds⟩, .askDuration)
  else if s.step.getD "symptom".data = "duration".data then
    some (⟨some "severity".data, s.tokens, some u, s.severity, s.preds⟩,
          .askSeverity)
  else if s.step.getD "symptom".data = "severity".data then
    match s.tokens with
    | none => none
    | some toks =>
        some (⟨some "ask_recommendations".data, some toks, s.duration,
               some u, some (app_predict mp dec toks)⟩,
              .showPredictions (app_predict mp dec toks))
  else if s.step.getD "symptom".data = "ask_recommendations".data then
    if yes_words.any (fun w => containsSub u w) = true then
      some (⟨some "more_symptoms".data, s.tokens, s.duration, s.severity,
             s.preds⟩, .recommendations (s.preds.getD []))
    else if no_words.any (fun w => containsSub u w) = true then
      some (⟨some "more_symptoms".data, s.tokens, s.duration, s.severity,
             s.preds⟩, .skipAdvice)
    else some (s, .askYesNo)
  else if s.step.getD "symptom".data = "more_symptoms".data then
    if more_yes_words.any (fun w => containsSub u w) = true then
      some (⟨some "symptom".data, s.tokens, s.duration, s.severity,
             s.preds⟩, .askMore)
    else some (Session.empty, .closing)
  else some (s, .didNotUnderstand)

/-- One full /chat turn: normalize the raw message, then handle it. -/
def chat (mp : List ℕ → List ℚ) (dec : ℕ → Str)
    (s : Session) (raw : Str) : Option (Session × Reply) :=
  chatOnInput mp dec s (normInput raw)

/-- Modelled from the spec: the idle-timeout of the session store (spec
§4.5).  The enforcement lives outside src/ (Flask rejects a session cookie
older than app.permanent_session_lifetime = 5 minutes, app.py line 15, and
substitutes a fresh session); only the configuration value is repository
code.  Times are in seconds. -/
def load_session (nowT lastT : ℕ) (s : Session) : Session :=
  if 300 < nowT - lastT then Session.empty else s

/-- The session states reachable from a brand-new conversation through
/chat turns (over every classifier, label decoder and input). -/
inductive Reachable : Session → Prop where
  | init : Reachable Session.empty
  | step (mp : List ℕ → List ℚ) (dec : ℕ → Str) (s : Session) (u : Str)
      (s2 : Session) (r : Reply) : Reachable s →
      chatOnInput mp dec s u = some (s2, r) → Reachable s2

/-- A trivial stand-in classifier, used only to instantiate theorems at
concrete inputs. -/
def mpZero : List ℕ → List ℚ := fun _ => []

/-- A trivial stand-in label decoder, used only to instantiate theorems at
concrete inputs. -/
def decZero : ℕ → Str := fun _ => []

/-- The token-store invariant behind claim C10: whenever the stored step is
"duration" or "severity", the tokens key holds a non-empty list of
vocabulary tokens. -/
def SessionInv (s : Session) : Prop :=
  s.step = some "duration".data ∨ s.step = some "severity".data →
    ∃ l, s.tokens = some l ∧ l ≠ [] ∧ ∀ t ∈ l, t ∈ SYMPTOMS

/-- The order the prediction invariant asserts on (class index, probability)
pairs: strictly greater probability first, ties by ascending class index. -/
def RankOrder (a b : ℕ × ℚ) : Prop := b.2 < a.2 ∨ (a.2 = b.2 ∧ a.1 < b.1)

/-- The extraction exactly as claim C6 words it: lowercase, replace commas
AND periods by spaces, split on whitespace discarding empty fragments, keep
the vocabulary tokens in order.  (The code instead deletes periods.) -/
def extract_claimed (raw : Str) : List Str :=
  (splitWs (replaceChar '.' ' ' (replaceChar ',' ' ' (toLowerList raw)))).filter
    (fun t => decide (t ∈ SYMPTOMS))

/-- The extraction as amended: lowercase, replace commas by spaces, delete
periods, split on whitespace discarding empty fragments, keep the
vocabulary tokens in order with duplicates preserved. -/
def extract_amended (raw : Str) : List Str :=
  (splitWs (removeChar '.' (replaceChar ',' ' ' (toLowerList raw)))).filter
    (fun t => decide (t ∈ SYMPTOMS))

/-- Model of Python s.split(","): cut at every comma, keeping empty
fragments; the result always has one more fragment than there are commas
(the nil arm of the inner match is unreachable). -/
def splitOnComma : Str → List Str
  | [] => [[]]
  | c :: t =>
      if c = ',' then [] :: splitOnComma t
      else
        match splitOnComma t with
        | [] => [[c]]
        | w :: ws => (c :: w) :: ws

/-- main.py line 56: the CLI tokenization of the (already stripped) input
line: split on commas only, then strip, lowercase and underscore each
fragment.  No period handling, no empty-fragment discard and no
vocabulary filter. -/
def cli_extract (user : Str) : List Str :=
  (splitOnComma user).map (fun t => replaceChar ' ' '_' (toLowerList (trimList t)))

/-- Scanning skips a block of tokens none of which satisfies the predicate. -/
theorem find_skip (p : Str → Bool) (l₁ l₂ : List Str)
    (h : ∀ u ∈ l₁, p u = false) :
    List.find? p (l₁ ++ l₂) = List.find? p l₂ := by
  induction l₁ with
  | nil => rfl
  | cons a t ih =>
      rw [List.cons_append,
        List.find?_cons_of_neg _ (by simp [h a (List.mem_cons_self a t)])]
      exact ih (fun u hu => h u (List.mem_cons_of_mem a hu))

/-- C1: a token list that contains a direct critical term makes
emergency_check return (true, t) with t the first such term in token
order; the compound rule is never consulted. -/
theorem emergency_direct_first (l₁ l₂ : List Str) (t : Str)
    (ht : t ∈ emergency_terms) (h₁ : ∀ u ∈ l₁, u ∉ emergency_terms) :
    emergency_check (l₁ ++ t :: l₂) = (true, some t) := by
  have hfind : List.find? (fun x => decide (x ∈ emergency_terms)) (l₁ ++ t :: l₂)
      = some t := by
    rw [find_skip _ l₁ (t :: l₂) (fun u hu => by simp [h₁ u hu])]
    exact List.find?_cons_of_pos _ (decide_eq_true ht)
  unfold emergency_check
  rw [hfind]

/-- Witness for C1: the second token is the first direct critical term and
is the reported match, ahead of a later direct term. -/
theorem emergency_direct_first_witness :
    emergency_check ["fever".data, "stroke".data, "heart_attack".data]
      = (true, some "stroke".data) :=
  emergency_direct_first ["fever".data] ["heart_attack".data] "stroke".data
    (by decide) (by decide)

/-- C2: with chest_pain plus shortness_of_breath or dizziness and no direct
critical term, emergency_check reports the literal compound label. -/
theorem emergency_compound (tokens : List Str)
    (hc : "chest_pain".data ∈ tokens)
    (hsd : "shortness_of_breath".data ∈ tokens ∨ "dizziness".data ∈ tokens)
    (hno : ∀ t ∈ tokens, t ∉ emergency_terms) :
    emergency_check tokens = (true, some "chest_pain + shortness_of_breath".data) := by
  have hfind : List.find? (fun x => decide (x ∈ emergency_terms)) tokens = none :=
    List.find?_eq_none.mpr (fun x hx => by simp [hno x hx])
  unfold emergency_check
  rw [hfind, if_pos ⟨hc, hsd⟩]

/-- Witness for C2: dizziness absent, shortness_of_breath present. -/
theorem emergency_compound_witness :
    emergency_check ["chest_pain".data, "shortness_of_breath".data]
      = (true, some "chest_pain + shortness_of_breath".data) :=
  emergency_compound ["chest_pain".data, "shortness_of_breath".data]
    (by decide) (by decide) (by decide)

/-- Every token kept by the web extraction is a vocabulary token. -/
theorem matchedTokens_subset (u : Str) : ∀ t ∈ matchedTokens u, t ∈ SYMPTOMS := by
  intro t ht
  exact of_decide_eq_true (List.mem_filter.mp ht).2

/-- C9: no direct critical term is in the vocabulary, the web handler only
passes vocabulary tokens to emergency_check, and hence on
vocabulary-only token lists an emergency is only ever the compound
chest-pain match. -/
theorem emergency_web_compound_only :
    (∀ t ∈ emergency_terms, t ∉ SYMPTOMS)
    ∧ (∀ u : Str, ∀ t ∈ matchedTokens u, t ∈ SYMPTOMS)
    ∧ ∀ toks : List Str, (∀ t ∈ toks, t ∈ SYMPTOMS) →
        (emergency_check toks).1 = true →
        emergency_check toks = (true, some "chest_pain + shortness_of_breath".data) := by
  have hdisj : ∀ t ∈ emergency_terms, t ∉ SYMPTOMS := by decide
  refine ⟨hdisj, matchedTokens_subset, ?_⟩
  intro toks hsub hem
  have hfind : List.find? (fun x => decide (x ∈ emergency_terms)) toks = none := by
    refine List.find?_eq_none.mpr (fun x hx => ?_)
    simp only [decide_eq_true_eq]
    exact fun hxe => hdisj x hxe (hsub x hx)
  have hec : emergency_check toks
      = if "chest_pain".data ∈ toks ∧
            ("shortness_of_breath".data ∈ toks ∨ "dizziness".data ∈ toks) then
          (true, some "chest_pain + shortness_of_breath".data)
        else (false, none) := by
    unfold emergency_check
    rw [hfind]
  rw [hec] at hem ⊢
  by_cases hcond : "chest_pain".data ∈ toks ∧
      ("shortness_of_breath".data ∈ toks ∨ "dizziness".data ∈ toks)
  · rw [if_pos hcond]
  · rw [if_neg hcond] at hem
    exact absurd hem (by decide)

/-- Witness for C9: a vocabulary-only token list whose emergency is the
compound label. -/
theorem emergency_web_compound_only_witness :
    emergency_check ["chest_pain".data, "dizziness".data]
      = (true, some "chest_pain + shortness_of_breath".data) :=
  emergency_web_compound_only.2.2 ["chest_pain".data, "dizziness".data]
    (by decide) (by decide)

/-- Membership through stable insertion. -/
theorem mem_insort {z x : ℕ × ℚ} {l : List (ℕ × ℚ)} :
    z ∈ insort x l ↔ z = x ∨ z ∈ l := by
  induction l with
  | nil => simp [insort]
  | cons y ys ih =>
      unfold insort
      by_cases h : x.2 < y.2
      · rw [if_pos h]
        simp only [List.mem_cons, ih]
        tauto
      · rw [if_neg h]
        simp only [List.mem_cons]

/-- Stable insertion preserves the full rank order when the inserted
element's index is below every index already present. -/
theorem insort_pairwise {x : ℕ × ℚ} {l : List (ℕ × ℚ)}
    (hl : l.Pairwise RankOrder) (hidx : ∀ y ∈ l, x.1 < y.1) :
    (insort x l).Pairwise RankOrder := by
  induction l with
  | nil => exact List.pairwise_singleton RankOrder x
  | cons y ys ih =>
      rcases List.pairwise_cons.mp hl with ⟨hy, hys⟩
      unfold insort
      by_cases h : x.2 < y.2
      · rw [if_pos h]
        refine List.pairwise_cons.mpr
          ⟨?_, ih hys (fun z hz => hidx z (List.mem_cons_of_mem y hz))⟩
        intro z hz
        rcases mem_insort.mp hz with rfl | hz'
        · exact Or.inl h
        · exact hy z hz'
      · rw [if_neg h]
        have hle : y.2 ≤ x.2 := not_lt.mp h
        refine List.pairwise_cons.mpr ⟨?_, hl⟩
        intro z hz
        rcases List.mem_cons.mp hz with rfl | hz'
        · rcases lt_or_eq_of_le hle with h' | h'
          · exact Or.inl h'
          · exact Or.inr ⟨h'.symm, hidx z (List.mem_cons_self z ys)⟩
        · rcases hy z hz' with h1 | ⟨h2, _⟩
          · exact Or.inl (lt_of_lt_of_le h1 hle)
          · rcases lt_or_eq_of_le hle with h' | h'
            · exact Or.inl (h2 ▸ h')
            · exact Or.inr ⟨by rw [← h', h2], hidx z (List.mem_cons_of_mem y hz')⟩

/-- The stable sort permutes nothing in or out. -/
theorem mem_sortDesc {z : ℕ × ℚ} {l : List (ℕ × ℚ)} :
    z ∈ sortDesc l ↔ z ∈ l := by
  induction l with
  | nil => simp [sortDesc]
  | cons x xs ih =>
      unfold sortDesc
      rw [mem_insort, ih, List.mem_cons]

/-- A list with strictly increasing indices is fully rank-ordered by the
stable descending sort. -/
theorem sortDesc_pairwise {l : List (ℕ × ℚ)}
    (h : l.Pairwise (fun a b => a.1 < b.1)) :
    (sortDesc l).Pairwise RankOrder := by
  induction l with
  | nil => exact List.Pairwise.nil
  | cons x xs ih =>
      rcases List.pairwise_cons.mp h with ⟨hx, hxs⟩
      unfold sortDesc
      exact insort_pairwise (ih hxs) (fun y hy => hx y (mem_sortDesc.mp hy))

/-- The enumerated probability list has strictly increasing indices. -/
theorem pairwise_fst_lt_enum (l : List ℚ) :
    l.enum.Pairwise (fun a b : ℕ × ℚ => a.1 < b.1) := by
  have h := List.pairwise_lt_range l.length
  rw [← List.enum_map_fst l] at h
  exact List.pairwise_map.mp h

/-- The top-three selection is fully rank-ordered. -/
theorem topk_pairwise (proba : List ℚ) : (topk proba).Pairwise RankOrder :=
  List.Pairwise.sublist (List.take_sublist 3 _)
    (sortDesc_pairwise (pairwise_fst_lt_enum proba))

/-- Rank order implies non-increasing probability. -/
theorem rankOrder_prob_le {a b : ℕ × ℚ} (h : RankOrder a b) : b.2 ≤ a.2 := by
  rcases h with h | ⟨h, _⟩
  · exact le_of_lt h
  · exact le_of_eq h.symm

/-- The classifier path always yields at most three pairs in non-increasing
probability order. -/
theorem model_topk_preds_sorted (mp : List ℕ → List ℚ) (dec : ℕ → Str)
    (tokens : List Str) :
    (model_topk_preds mp dec tokens).length ≤ 3
    ∧ (model_topk_preds mp dec tokens).Pairwise
        (fun a b : Str × ℚ => b.2 ≤ a.2) := by
  constructor
  · unfold model_topk_preds topk
    rw [List.length_map]
    exact List.length_take_le 3 _
  · unfold model_topk_preds
    refine List.pairwise_map.mpr ?_
    exact (topk_pairwise _).imp (fun h => rankOrder_prob_le h)

/-- The fever triple has three entries in non-increasing probability order. -/
theorem fever_preds_sorted :
    fever_preds.length ≤ 3
    ∧ fever_preds.Pairwise (fun a b : Str × ℚ => b.2 ≤ a.2) := by
  constructor
  · rfl
  · unfold fever_preds
    refine List.pairwise_cons.mpr ⟨?_, List.pairwise_cons.mpr
      ⟨?_, List.pairwise_singleton _ _⟩⟩
    · intro z hz
      rcases List.mem_cons.mp hz with rfl | hz'
      · norm_num
      · rcases List.mem_singleton.mp hz' with rfl
        norm_num
    · intro z hz
      rcases List.mem_singleton.mp hz with rfl
      norm_num

/-- C5: every prediction list of the web or CLI prediction step has length
at most three and non-increasing probabilities, and the underlying
top-three index selection breaks probability ties by ascending original
class index. -/
theorem predictions_bounded_sorted :
    (∀ (mp : List ℕ → List ℚ) (dec : ℕ → Str) (tokens : List Str),
        (app_predict mp dec tokens).length ≤ 3
        ∧ (app_predict mp dec tokens).Pairwise (fun a b : Str × ℚ => b.2 ≤ a.2))
    ∧ (∀ (mp : List ℕ → List ℚ) (dec : ℕ → Str) (tokens : List Str),
        (cli_predict mp dec tokens).length ≤ 3
        ∧ (cli_predict mp dec tokens).Pairwise (fun a b : Str × ℚ => b.2 ≤ a.2))
    ∧ ∀ proba : List ℚ, (topk proba).Pairwise RankOrder := by
  refine ⟨?_, ?_, topk_pairwise⟩
  · intro mp dec tokens
    unfold app_predict
    by_cases h : "fever".data ∈ tokens ∧ "leg_swelling".data ∉ tokens
    · rw [if_pos h]
      exact fever_preds_sorted
    · rw [if_neg h]
      exact model_topk_preds_sorted mp dec tokens
  · intro mp dec tokens
    exact model_topk_preds_sorted mp dec tokens

/-- C4 counterexample: the CLI prediction step has no fever rule, so with
fever present and leg_swelling absent it still returns whatever the
classifier says (here a single class), not the fixed triple. -/
theorem cli_fever_cex :
    "fever".data ∈ ["fever".data]
    ∧ "leg_swelling".data ∉ ["fever".data]
    ∧ cli_predict (fun _ => [1]) (fun _ => "Common Cold".data) ["fever".data]
        ≠ fever_preds := by
  refine ⟨by decide, by decide, ?_⟩
  intro h
  have h1 : cli_predict (fun _ => [1]) (fun _ => "Common Cold".data) ["fever".data]
      = [("Common Cold".data, (1 : ℚ))] := rfl
  rw [h1] at h
  exact absurd (congrArg List.length h) (by decide)

/-- C4 (amended): in the web prediction step the fever rule yields the
fixed triple for any token list with fever and without leg_swelling,
independent of the classifier and label decoder. -/
theorem app_fever_rule (mp : List ℕ → List ℚ) (dec : ℕ → Str)
    (tokens : List Str) (hf : "fever".data ∈ tokens)
    (hl : "leg_swelling".data ∉ tokens) :
    app_predict mp dec tokens = fever_preds := by
  unfold app_predict
  rw [if_pos ⟨hf, hl⟩]

/-- Witness for C4: the fever rule at a concrete token list. -/
theorem app_fever_rule_witness :
    app_predict mpZero decZero ["fever".data, "cough".data] = fever_preds :=
  app_fever_rule mpZero decZero ["fever".data, "cough".data]
    (by decide) (by decide)

/-- The four whitespace characters. -/
theorem ws_cases (c : Char) (h : wsChar c = true) :
    c = ' ' ∨ c = '\t' ∨ c = '\x0d' ∨ c = '\n' := by
  simp [wsChar, Char.isWhitespace] at h
  tauto

/-- A whitespace character passes unchanged through lowercasing, the comma
replacement and the period deletion. -/
theorem pipeline_fix_ws (c : Char) (h : wsChar c = true) :
    Char.toLower c = c ∧ ¬(c = ',') ∧ ¬(c = '.') := by
  rcases ws_cases c h with rfl | rfl | rfl | rfl <;>
    exact ⟨by decide, by decide, by decide⟩

/-- Mapping a function that fixes every member is the identity. -/
theorem map_id_of {α : Type} (f : α → α) (l : List α)
    (h : ∀ x ∈ l, f x = x) : l.map f = l := by
  induction l with
  | nil => rfl
  | cons a t ih =>
      rw [List.map_cons, h a (List.mem_cons_self a t),
        ih (fun x hx => h x (List.mem_cons_of_mem a hx))]

/-- An all-whitespace block passes unchanged through the normalization
pipeline character maps. -/
theorem pipeline_fix_allws (a : Str) (h : ∀ c ∈ a, wsChar c = true) :
    removeChar '.' (replaceChar ',' ' ' (toLowerList a)) = a := by
  have h1 : toLowerList a = a :=
    map_id_of _ a (fun c hc => (pipeline_fix_ws c (h c hc)).1)
  have h2 : replaceChar ',' ' ' a = a :=
    map_id_of _ a (fun c hc => if_neg (pipeline_fix_ws c (h c hc)).2.1)
  have h3 : removeChar '.' a = a :=
    List.filter_eq_self.mpr
      (fun c hc => decide_eq_true (pipeline_fix_ws c (h c hc)).2.2)
  rw [h1, h2, h3]

/-- Splitting ignores an all-whitespace prefix. -/
theorem splitWsAux_ws_front (p : Str) (hp : ∀ c ∈ p, wsChar c = true)
    (l : Str) : splitWsAux (p ++ l) [] = splitWsAux l [] := by
  induction p with
  | nil => rfl
  | cons c t ih =>
      rw [List.cons_append]
      show splitWsAux (c :: (t ++ l)) [] = splitWsAux l []
      simp only [splitWsAux]
      rw [if_pos (hp c (List.mem_cons_self c t)), if_pos trivial]
      exact ih (fun x hx => hp x (List.mem_cons_of_mem c hx))

/-- Splitting an all-whitespace list yields at most the pending word. -/
theorem splitWsAux_allws (q : Str) (hq : ∀ c ∈ q, wsChar c = true) :
    ∀ acc : Str, splitWsAux q acc = if acc = [] then [] else [acc.reverse] := by
  induction q with
  | nil => intro acc; rfl
  | cons c t ih =>
      intro acc
      have ht := ih (fun x hx => hq x (List.mem_cons_of_mem c hx))
      simp only [splitWsAux]
      rw [if_pos (hq c (List.mem_cons_self c t))]
      by_cases ha : acc = []
      · rw [if_pos ha, ht [], if_pos rfl, if_pos ha]
      · rw [if_neg ha, ht [], if_pos rfl, if_neg ha]

/-- Splitting ignores an all-whitespace suffix. -/
theorem splitWsAux_ws_back (q : Str) (hq : ∀ c ∈ q, wsChar c = true) :
    ∀ l acc : Str, splitWsAux (l ++ q) acc = splitWsAux l acc := by
  intro l
  induction l with
  | nil =>
      intro acc
      rw [List.nil_append, splitWsAux_allws q hq acc]
      rfl
  | cons c t ih =>
      intro acc
      rw [List.cons_append]
      show splitWsAux (c :: (t ++ q)) acc = splitWsAux (c :: t) acc
      simp only [splitWsAux]
      by_cases hc : wsChar c = true
      · rw [if_pos hc, if_pos hc]
        by_cases ha : acc = []
        · rw [if_pos ha, if_pos ha, ih []]
        · rw [if_neg ha, if_neg ha, ih []]
      · rw [if_neg hc, if_neg hc, ih (c :: acc)]

/-- Every raw text is an all-whitespace prefix, its stripped core, and an
all-whitespace suffix. -/
theorem trim_decomp (l : Str) :
    ∃ a b : Str, (∀ c ∈ a, wsChar c = true) ∧ (∀ c ∈ b, wsChar c = true)
      ∧ l = a ++ trimList l ++ b := by
  refine ⟨l.takeWhile wsChar,
    ((l.dropWhile wsChar).reverse.takeWhile wsChar).reverse,
    fun c hc => List.mem_takeWhile_imp hc,
    fun c hc => List.mem_takeWhile_imp (List.mem_reverse.mp hc), ?_⟩
  unfold trimList
  rw [List.append_assoc]
  conv_lhs => rw [← List.takeWhile_append_dropWhile wsChar l]
  congr 1
  conv_lhs => rw [← List.reverse_reverse (l.dropWhile wsChar),
    ← List.takeWhile_append_dropWhile wsChar (l.dropWhile wsChar).reverse,
    List.reverse_append]

/-- Words produced by the splitter are non-empty and whitespace-free. -/
theorem splitWsAux_members (l : Str) :
    ∀ acc : Str, (∀ c ∈ acc, wsChar c = false) →
      ∀ w ∈ splitWsAux l acc, w ≠ [] ∧ ∀ c ∈ w, wsChar c = false := by
  induction l with
  | nil =>
      intro acc hacc w hw
      simp only [splitWsAux] at hw
      by_cases ha : acc = []
      · rw [if_pos ha] at hw
        exact absurd hw (List.not_mem_nil w)
      · rw [if_neg ha] at hw
        rcases List.mem_singleton.mp hw with rfl
        exact ⟨by simpa using ha, fun c hc => hacc c (List.mem_reverse.mp hc)⟩
  | cons c t ih =>
      intro acc hacc w hw
      simp only [splitWsAux] at hw
      by_cases hc : wsChar c = true
      · rw [if_pos hc] at hw
        by_cases ha : acc = []
        · rw [if_pos ha] at hw
          exact ih [] (by simp) w hw
        · rw [if_neg ha] at hw
          rcases List.mem_cons.mp hw with rfl | hw'
          · exact ⟨by simpa using ha, fun x hx => hacc x (List.mem_reverse.mp hx)⟩
          · exact ih [] (by simp) w hw'
      · rw [if_neg hc] at hw
        refine ih (c :: acc) ?_ w hw
        intro x hx
        rcases List.mem_cons.mp hx with rfl | hx'
        · simpa using hc
        · exact hacc x hx'

/-- Dropping leading whitespace from a whitespace-free word is the identity. -/
theorem dropWhile_of_notws (w : Str) (h : ∀ c ∈ w, wsChar c = false) :
    w.dropWhile wsChar = w := by
  cases w with
  | nil => rfl
  | cons c t =>
      rw [List.dropWhile_cons, if_neg (by simp [h c (List.mem_cons_self c t)])]

/-- Stripping a whitespace-free word is the identity. -/
theorem trimList_fix (w : Str) (h : ∀ c ∈ w, wsChar c = false) :
    trimList w = w := by
  unfold trimList
  rw [dropWhile_of_notws w h,
    dropWhile_of_notws w.reverse (fun c hc => h c (List.mem_reverse.mp hc)),
    List.reverse_reverse]

/-- Replacing internal spaces in a whitespace-free word is the identity. -/
theorem underscore_fix (w : Str) (h : ∀ c ∈ w, wsChar c = false) :
    replaceChar ' ' '_' w = w := by
  unfold replaceChar
  refine map_id_of _ w (fun c hc => if_neg ?_)
  intro he
  exact absurd (h c hc) (by rw [he]; decide)

/-- Filter-mapping a function that keeps every member unchanged is the
identity. -/
theorem filterMap_eq_self_of {α : Type} (f : α → Option α) (l : List α)
    (h : ∀ x ∈ l, f x = some x) : l.filterMap f = l := by
  induction l with
  | nil => rfl
  | cons a t ih =>
      rw [List.filterMap_cons_some (h a (List.mem_cons_self a t)),
        ih (fun x hx => h x (List.mem_cons_of_mem a hx))]

/-- On the split words the per-word strip / underscore pass of the source is
the identity, so the extraction is a plain vocabulary filter of the split. -/
theorem matchedTokens_eq_filter (u : Str) :
    matchedTokens u
      = (splitWs (removeChar '.' (replaceChar ',' ' ' u))).filter
          (fun t => decide (t ∈ SYMPTOMS)) := by
  unfold matchedTokens
  congr 1
  apply filterMap_eq_self_of
  intro w hw
  obtain ⟨hne, hnw⟩ := splitWsAux_members _ [] (by simp) w hw
  rw [trimList_fix w hnw, if_neg hne, underscore_fix w hnw]

/-- The initial strip of the request text does not change the split words. -/
theorem splitWs_g_trim (l : Str) :
    splitWs (removeChar '.' (replaceChar ',' ' ' (toLowerList (trimList l))))
      = splitWs (removeChar '.' (replaceChar ',' ' ' (toLowerList l))) := by
  obtain ⟨a, b, ha, hb, hd⟩ := trim_decomp l
  conv_rhs => rw [hd]
  unfold toLowerList replaceChar removeChar
  rw [List.map_append, List.map_append, List.map_append, List.map_append,
    List.filter_append, List.filter_append]
  have hga : List.filter (fun c => decide ¬(c = '.'))
      (List.map (fun c => if c = ',' then ' ' else c)
        (List.map Char.toLower a)) = a := pipeline_fix_allws a ha
  have hgb : List.filter (fun c => decide ¬(c = '.'))
      (List.map (fun c => if c = ',' then ' ' else c)
        (List.map Char.toLower b)) = b := pipeline_fix_allws b hb
  rw [hga, hgb]
  unfold splitWs
  rw [List.append_assoc, splitWsAux_ws_front a ha, splitWsAux_ws_back b hb]

/-- The comma splitter never returns an empty fragment list. -/
theorem splitOnComma_ne_nil (l : Str) : splitOnComma l ≠ [] := by
  cases l with
  | nil => simp [splitOnComma]
  | cons c t =>
      simp only [splitOnComma]
      by_cases hc : c = ','
      · rw [if_pos hc]
        simp
      · rw [if_neg hc]
        rcases splitOnComma t with _ | ⟨w, ws⟩ <;> simp

/-- The comma splitter keeps one fragment per comma plus one: nothing is
discarded. -/
theorem splitOnComma_length (l : Str) :
    (splitOnComma l).length = l.count ',' + 1 := by
  induction l with
  | nil => rfl
  | cons c t ih =>
      simp only [splitOnComma]
      by_cases hc : c = ','
      · rw [if_pos hc]
        simp [List.count_cons, hc, ih]
      · rw [if_neg hc]
        rcases hs : splitOnComma t with _ | ⟨w, ws⟩
        · exact absurd hs (splitOnComma_ne_nil t)
        · rw [hs] at ih
          simp [List.count_cons, hc] at ih ⊢
          omega

/-- A comma-free line is a single fragment. -/
theorem splitOnComma_of_not_mem (l : Str) (h : ',' ∉ l) :
    splitOnComma l = [l] := by
  induction l with
  | nil => rfl
  | cons c t ih =>
      have hc : ¬(c = ',') := fun he => h (List.mem_cons.mpr (Or.inl he.symm))
      simp only [splitOnComma]
      rw [if_neg hc, ih (fun hm => h (List.mem_cons_of_mem c hm))]

/-- C6 counterexample: on the input fever.cough the web extraction yields
nothing (the period is deleted, gluing the words), while the claimed
period-to-space normalization would extract both tokens; and the CLI
extraction of the same claim keeps a non-vocabulary word verbatim and
leaves the period in place, so neither cited extraction matches the
claim. -/
theorem extract_period_cex :
    (extract "fever.cough".data = []
      ∧ extract_claimed "fever.cough".data = ["fever".data, "cough".data]
      ∧ extract "fever.cough".data ≠ extract_claimed "fever.cough".data)
    ∧ (cli_extract "banana".data = ["banana".data]
      ∧ "banana".data ∉ SYMPTOMS
      ∧ cli_extract "fever.cough".data = ["fever.cough".data]) := by
  decide

/-- C6 (amended): the web extraction lowercases the input, replaces commas
by spaces, deletes periods, splits on whitespace discarding empty
fragments, and keeps exactly the vocabulary tokens in the order
encountered with duplicates preserved; the CLI extraction instead splits
on commas only and keeps every fragment (one more than the number of
commas, so no vocabulary filter and no empty-fragment discard), and a
comma-free line stays one single token, the whole line stripped,
lowercased and underscored, whatever periods or non-vocabulary words it
contains. -/
theorem extract_characterization :
    (∀ raw : Str, extract raw = extract_amended raw)
    ∧ (∀ user : Str, (cli_extract user).length = user.count ',' + 1)
    ∧ ∀ user : Str, ',' ∉ user →
        cli_extract user = [replaceChar ' ' '_' (toLowerList (trimList user))] := by
  refine ⟨?_, ?_, ?_⟩
  · intro raw
    unfold extract normInput extract_amended
    rw [matchedTokens_eq_filter, splitWs_g_trim]
  · intro user
    unfold cli_extract
    rw [List.length_map]
    exact splitOnComma_length user
  · intro user h
    unfold cli_extract
    rw [splitOnComma_of_not_mem user h]
    rfl

/-- Witness for C6 (amended): a comma-free CLI line becomes one underscored
token. -/
theorem extract_characterization_witness :
    cli_extract "fever cough".data = ["fever_cough".data] :=
  extract_characterization.2.2 "fever cough".data (by decide)

/-- No exact-match intercept string (greeting, negation, exit, quit, list)
contains a vocabulary token. -/
theorem intercept_no_tokens :
    (∀ w ∈ greeting_words, matchedTokens w = [])
    ∧ (∀ w ∈ negation_words, matchedTokens w = [])
    ∧ matchedTokens "exit".data = [] ∧ matchedTokens "quit".data = []
    ∧ matchedTokens "list".data = [] := by decide

/-- C3 counterexample: in the Symptom phase, the input
chest_pain shortness_of_breath bye extracts tokens that make
emergency_check fire, yet the farewell intercept runs first: the turn
returns the thank-you reply and clears the session instead of returning
the emergency reply and leaving the session unchanged. -/
theorem symptom_emergency_frame_cex :
    ((⟨some "symptom".data, some ["fever".data], none, none, none⟩ : Session).step.getD
        "symptom".data = "symptom".data)
    ∧ (emergency_check (extract "chest_pain shortness_of_breath bye".data)).1 = true
    ∧ chat mpZero decZero ⟨some "symptom".data, some ["fever".data], none, none, none⟩
        "chest_pain shortness_of_breath bye".data = some (Session.empty, Reply.thanksBye)
    ∧ Session.empty ≠ (⟨some "symptom".data, some ["fever".data], none, none, none⟩ : Session) := by
  decide

/-- C3 (amended): a Symptom-phase turn whose input does not contain a
farewell keyword and whose extracted vocabulary tokens make
emergency_check fire returns the emergency reply with the matched term and
leaves the session exactly as it was. -/
theorem symptom_emergency_frame (mp : List ℕ → List ℚ) (dec : ℕ → Str)
    (s : Session) (u : Str)
    (hstep : s.step.getD "symptom".data = "symptom".data)
    (hfw : farewell_words.any (fun w => containsSub u w) = false)
    (hem : (emergency_check (matchedTokens u)).1 = true) :
    chatOnInput mp dec s u
      = some (s, Reply.emergency (emergency_check (matchedTokens u)).2) := by
  have hmt : matchedTokens u ≠ [] := by
    intro h0
    rw [h0] at hem
    exact absurd hem (by decide)
  have hne : ¬(u = []) := by
    intro h0
    exact hmt (by rw [h0]; rfl)
  have hgr : ¬(u ∈ greeting_words) := fun hm => hmt (intercept_no_tokens.1 u hm)
  have hex : ¬(u = "exit".data ∨ u = "quit".data) := by
    rintro (rfl | rfl)
    · exact hmt intercept_no_tokens.2.2.1
    · exact hmt intercept_no_tokens.2.2.2.1
  have hlist : ¬(u = "list".data) := by
    rintro rfl
    exact hmt intercept_no_tokens.2.2.2.2
  have hneg : ¬(u ∈ negation_words) := fun hm => hmt (intercept_no_tokens.2.1 u hm)
  unfold chatOnInput
  rw [if_neg hne, if_neg (by simp [hfw]), if_neg hgr, if_neg hex, if_neg hlist,
    if_pos hstep, if_neg hneg, if_neg hmt, if_pos hem]

/-- Witness for C3 (amended): a compound emergency in the Symptom phase at
a concrete session, with the session returned untouched. -/
theorem symptom_emergency_frame_witness :
    chatOnInput mpZero decZero ⟨some "symptom".data, some ["cough".data], none, none, none⟩
        "chest_pain dizziness".data
      = some (⟨some "symptom".data, some ["cough".data], none, none, none⟩,
          Reply.emergency (some "chest_pain + shortness_of_breath".data)) :=
  symptom_emergency_frame mpZero decZero
    ⟨some "symptom".data, some ["cough".data], none, none, none⟩
    "chest_pain dizziness".data (by decide) (by decide) (by decide)

/-- C7: an input whose strip-and-lowercase form is exactly list yields the
joined vocabulary as the reply and returns the session untouched, in any
phase. -/
theorem list_turn (mp : List ℕ → List ℚ) (dec : ℕ → Str) (s : Session)
    (raw : Str) (h : normInput raw = "list".data) :
    chat mp dec s raw
      = some (s, Reply.listSymptoms (joinSep ", ".data SYMPTOMS)) := by
  unfold chat
  rw [h]
  rfl

/-- Witness for C7: the raw input " List " in a mid-conversation session. -/
theorem list_turn_witness :
    chat mpZero decZero ⟨some "duration".data, some ["fever".data], none, none, none⟩
        " List ".data
      = some (⟨some "duration".data, some ["fever".data], none, none, none⟩,
          Reply.listSymptoms (joinSep ", ".data SYMPTOMS)) :=
  list_turn mpZero decZero
    ⟨some "duration".data, some ["fever".data], none, none, none⟩
    " List ".data (by decide)

/-- C8: a session idle for more than five minutes loads as the fresh empty
session, so the next turn behaves exactly like a brand-new conversation:
the phase read defaults to Symptom and all previously stored tokens,
duration, severity and predictions are gone. -/
theorem idle_timeout_fresh (mp : List ℕ → List ℚ) (dec : ℕ → Str)
    (s : Session) (raw : Str) (nowT lastT : ℕ) (h : 300 < nowT - lastT) :
    load_session nowT lastT s = Session.empty
    ∧ chat mp dec (load_session nowT lastT s) raw = chat mp dec Session.empty raw
    ∧ (load_session nowT lastT s).step.getD "symptom".data = "symptom".data
    ∧ (load_session nowT lastT s).tokens = none
    ∧ (load_session nowT lastT s).duration = none
    ∧ (load_session nowT lastT s).severity = none
    ∧ (load_session nowT lastT s).preds = none := by
  have hl : load_session nowT lastT s = Session.empty := by
    unfold load_session
    rw [if_pos h]
  refine ⟨hl, by rw [hl], ?_, ?_, ?_, ?_, ?_⟩ <;> rw [hl] <;> rfl

/-- Witness for C8: a six-minute-idle session with stored data loads fresh. -/
theorem idle_timeout_fresh_witness :
    load_session 360 0 ⟨some "severity".data, some ["fever".data],
        some "2 days".data, none, none⟩ = Session.empty
    ∧ chat mpZero decZero (load_session 360 0 ⟨some "severity".data,
        some ["fever".data], some "2 days".data, none, none⟩) "cough".data
      = chat mpZero decZero Session.empty "cough".data
    ∧ (load_session 360 0 ⟨some "severity".data, some ["fever".data],
        some "2 days".data, none, none⟩).step.getD "symptom".data = "symptom".data
    ∧ (load_session 360 0 ⟨some "severity".data, some ["fever".data],
        some "2 days".data, none, none⟩).tokens = none
    ∧ (load_session 360 0 ⟨some "severity".data, some ["fever".data],
        some "2 days".data, none, none⟩).duration = none
    ∧ (load_session 360 0 ⟨some "severity".data, some ["fever".data],
        some "2 days".data, none, none⟩).severity = none
    ∧ (load_session 360 0 ⟨some "severity".data, some ["fever".data],
        some "2 days".data, none, none⟩).preds = none :=
  idle_timeout_fresh mpZero decZero
    ⟨some "severity".data, some ["fever".data], some "2 days".data, none, none⟩
    "cough".data 360 0 (by decide)

/-- A stored step value is recovered from the defaulted read whenever the
read differs from the default. -/
theorem step_of_getD {s : Session} {w : Str} (hw : ¬("symptom".data = w))
    (h : s.step.getD "symptom".data = w) : s.step = some w := by
  cases hs : s.step with
  | none =>
      rw [hs] at h
      exact absurd h hw
  | some v =>
      rw [hs] at h
      simp only [Option.getD_some] at h
      rw [h]

/-- A session whose stored step is neither duration nor severity satisfies
the token-store invariant vacuously. -/
theorem sessionInv_of_step_other (st : Option Str) (tk : Option (List Str))
    (du sv : Option Str) (pr : Option (List (Str × ℚ)))
    (h1 : st ≠ some "duration".data) (h2 : st ≠ some "severity".data) :
    SessionInv ⟨st, tk, du, sv, pr⟩ := by
  intro hc
  rcases hc with hc | hc
  · exact absurd hc h1
  · exact absurd hc h2

/-- Every /chat turn preserves the token-store invariant. -/
theorem chat_preserves_inv (mp : List ℕ → List ℚ) (dec : ℕ → Str)
    (s : Session) (u : Str) (s2 : Session) (r : Reply)
    (hs : SessionInv s) (h : chatOnInput mp dec s u = some (s2, r)) :
    SessionInv s2 := by
  unfold chatOnInput at h
  by_cases h1 : u = []
  · rw [if_pos h1] at h
    injection h with h'
    injection h' with hA hB
    subst hA
    exact hs
  rw [if_neg h1] at h
  by_cases h2 : farewell_words.any (fun w => containsSub u w) = true
  · rw [if_pos h2] at h
    injection h with h'
    injection h' with hA hB
    subst hA
    exact sessionInv_of_step_other none none none none none (by decide) (by decide)
  rw [if_neg h2] at h
  by_cases h3 : u ∈ greeting_words
  · rw [if_pos h3] at h
    injection h with h'
    injection h' with hA hB
    subst hA
    exact sessionInv_of_step_other _ _ _ _ _ (by decide) (by decide)
  rw [if_neg h3] at h
  by_cases h4 : u = "exit".data ∨ u = "quit".data
  · rw [if_pos h4] at h
    injection h with h'
    injection h' with hA hB
    subst hA
    exact sessionInv_of_step_other none none none none none (by decide) (by decide)
  rw [if_neg h4] at h
  by_cases h5 : u = "list".data
  · rw [if_pos h5] at h
    injection h with h'
    injection h' with hA hB
    subst hA
    exact hs
  rw [if_neg h5] at h
  by_cases h6 : s.step.getD "symptom".data = "symptom".data
  · rw [if_pos h6] at h
    by_cases h7 : u ∈ negation_words
    · rw [if_pos h7] at h
      injection h with h'
      injection h' with hA hB
      subst hA
      exact sessionInv_of_step_other none none none none none (by decide) (by decide)
    rw [if_neg h7] at h
    by_cases h8 : matchedTokens u = []
    · rw [if_pos h8] at h
      injection h with h'
      injection h' with hA hB
      subst hA
      exact hs
    rw [if_neg h8] at h
    by_cases h9 : (emergency_check (matchedTokens u)).1 = true
    · rw [if_pos h9] at h
      injection h with h'
      injection h' with hA hB
      subst hA
      exact hs
    rw [if_neg h9] at h
    injection h with h'
    injection h' with hA hB
    subst hA
    intro hc
    exact ⟨matchedTokens u, rfl, h8, matchedTokens_subset u⟩
  rw [if_neg h6] at h
  by_cases h10 : s.step.getD "symptom".data = "duration".data
  · rw [if_pos h10] at h
    injection h with h'
    injection h' with hA hB
    subst hA
    intro hc
    obtain ⟨l, hl, hn, hsub⟩ := hs (Or.inl (step_of_getD (by decide) h10))
    exact ⟨l, hl, hn, hsub⟩
  rw [if_neg h10] at h
  by_cases h11 : s.step.getD "symptom".data = "severity".data
  · rw [if_pos h11] at h
    obtain ⟨l, hl, hn, hsub⟩ := hs (Or.inr (step_of_getD (by decide) h11))
    rw [hl] at h
    injection h with h'
    injection h' with hA hB
    subst hA
    exact sessionInv_of_step_other _ _ _ _ _ (by decide) (by decide)
  rw [if_neg h11] at h
  by_cases h12 : s.step.getD "symptom".data = "ask_recommendations".data
  · rw [if_pos h12] at h
    by_cases h13 : yes_words.any (fun w => containsSub u w) = true
    · rw [if_pos h13] at h
      injection h with h'
      injection h' with hA hB
      subst hA
      exact sessionInv_of_step_other _ _ _ _ _ (by decide) (by decide)
    rw [if_neg h13] at h
    by_cases h14 : no_words.any (fun w => containsSub u w) = true
    · rw [if_pos h14] at h
      injection h with h'
      injection h' with hA hB
      subst hA
      exact sessionInv_of_step_other _ _ _ _ _ (by decide) (by decide)
    rw [if_neg h14] at h
    injection h with h'
    injection h' with hA hB
    subst hA
    exact hs
  rw [if_neg h12] at h
  by_cases h15 : s.step.getD "symptom".data = "more_symptoms".data
  · rw [if_pos h15] at h
    by_cases h16 : more_yes_words.any (fun w => containsSub u w) = true
    · rw [if_pos h16] at h
      injection h with h'
      injection h' with hA hB
      subst hA
      exact sessionInv_of_step_other _ _ _ _ _ (by decide) (by decide)
    rw [if_neg h16] at h
    injection h with h'
    injection h' with hA hB
    subst hA
    exact sessionInv_of_step_other none none none none none (by decide) (by decide)
  rw [if_neg h15] at h
  injection h with h'
  injection h' with hA hB
  subst hA
  exact hs

/-- Every reachable session satisfies the token-store invariant. -/
theorem reachable_inv (s : Session) (h : Reachable s) : SessionInv s := by
  induction h with
  | init => exact sessionInv_of_step_other none none none none none (by decide) (by decide)
  | step mp dec s u s2 r hr heq ih => exact chat_preserves_inv mp dec s u s2 r ih heq

/-- Under the token-store invariant a turn never hits the unguarded
session lookup. -/
theorem chat_no_keyerror (mp : List ℕ → List ℚ) (dec : ℕ → Str)
    (s : Session) (u : Str) (hs : SessionInv s) :
    chatOnInput mp dec s u ≠ none := by
  unfold chatOnInput
  by_cases h1 : u = []
  · rw [if_pos h1]; simp
  rw [if_neg h1]
  by_cases h2 : farewell_words.any (fun w => containsSub u w) = true
  · rw [if_pos h2]; simp
  rw [if_neg h2]
  by_cases h3 : u ∈ greeting_words
  · rw [if_pos h3]; simp
  rw [if_neg h3]
  by_cases h4 : u = "exit".data ∨ u = "quit".data
  · rw [if_pos h4]; simp
  rw [if_neg h4]
  by_cases h5 : u = "list".data
  · rw [if_pos h5]; simp
  rw [if_neg h5]
  by_cases h6 : s.step.getD "symptom".data = "symptom".data
  · rw [if_pos h6]
    by_cases h7 : u ∈ negation_words
    · rw [if_pos h7]; simp
    rw [if_neg h7]
    by_cases h8 : matchedTokens u = []
    · rw [if_pos h8]; simp
    rw [if_neg h8]
    by_cases h9 : (emergency_check (matchedTokens u)).1 = true
    · rw [if_pos h9]; simp
    rw [if_neg h9]; simp
  rw [if_neg h6]
  by_cases h10 : s.step.getD "symptom".data = "duration".data
  · rw [if_pos h10]; simp
  rw [if_neg h10]
  by_cases h11 : s.step.getD "symptom".data = "severity".data
  · rw [if_pos h11]
    obtain ⟨l, hl, hn, hsub⟩ := hs (Or.inr (step_of_getD (by decide) h11))
    rw [hl]
    simp
  rw [if_neg h11]
  by_cases h12 : s.step.getD "symptom".data = "ask_recommendations".data
  · rw [if_pos h12]
    by_cases h13 : yes_words.any (fun w => containsSub u w) = true
    · rw [if_pos h13]; simp
    rw [if_neg h13]
    by_cases h14 : no_words.any (fun w => containsSub u w) = true
    · rw [if_pos h14]; simp
    rw [if_neg h14]; simp
  rw [if_neg h12]
  by_cases h15 : s.step.getD "symptom".data = "more_symptoms".data
  · rw [if_pos h15]
    by_cases h16 : more_yes_words.any (fun w => containsSub u w) = true
    · rw [if_pos h16]; simp
    rw [if_neg h16]; simp
  rw [if_neg h15]; simp

/-- C10: in every session reachable through /chat turns, a stored step of
severity comes with a stored non-empty list of vocabulary tokens, and no
turn from such a session can hit the unguarded tokens lookup. -/
theorem severity_tokens_safe (s : Session) (h : Reachable s) :
    (s.step = some "severity".data →
      ∃ l, s.tokens = some l ∧ l ≠ [] ∧ ∀ t ∈ l, t ∈ SYMPTOMS)
    ∧ ∀ (mp : List ℕ → List ℚ) (dec : ℕ → Str) (u : Str),
        chatOnInput mp dec s u ≠ none := by
  have hi := reachable_inv s h
  exact ⟨fun hstep => hi (Or.inr hstep),
    fun mp dec u => chat_no_keyerror mp dec s u hi⟩

/-- Witness for C10: the severity-phase session reached by the turns fever
then 2 days, on which the next turn (the severity report 7) succeeds. -/
theorem severity_tokens_safe_witness :
    chatOnInput mpZero decZero
        ⟨some "severity".data, some ["fever".data], some "2 days".data, none, none⟩
        "7".data ≠ none :=
  (severity_tokens_safe
    ⟨some "severity".data, some ["fever".data], some "2 days".data, none, none⟩
    (Reachable.step mpZero decZero
      ⟨some "duration".data, some ["fever".data], none, none, none⟩ "2 days".data
      ⟨some "severity".data, some ["fever".data], some "2 days".data, none, none⟩
      Reply.askSeverity
      (Reachable.step mpZero decZero Session.empty "fever".data
        ⟨some "duration".data, some ["fever".data], none, none, none⟩
        Reply.askDuration Reachable.init (by decide))
      (by decide))).2 mpZero decZero "7".data
